import Mathlib

/-!
Verification development for the PdfOcrProcessor repository (src/main.py).

Strings are modelled as lists of characters.  The character classes of the
Python regular expressions are modelled exactly on the character repertoire
the program manipulates: ASCII, general punctuation such as the bullet sign,
and the Khmer block (letters U+1780..U+17B3, digits U+17E0..U+17E9).
Characters outside this repertoire keep the same treatment as unlisted
punctuation (they are not word characters), which matches Python for every
character category the pipeline actually meets.
-/

namespace PdfOcr

/-- Model of the regex digit class of Python (decimal digits, category Nd)
on the modelled repertoire: ASCII digits and Khmer digits. -/
def pyDigit (c : Char) : Bool :=
  decide ((48 ≤ c.toNat ∧ c.toNat ≤ 57) ∨ (0x17E0 ≤ c.toNat ∧ c.toNat ≤ 0x17E9))

/-- Model of the regex word-character class of Python (alphanumerics and the
underscore) on the modelled repertoire: ASCII letters, ASCII digits, the
underscore, Khmer letters and Khmer digits. -/
def pyWordChar (c : Char) : Bool :=
  decide ((65 ≤ c.toNat ∧ c.toNat ≤ 90) ∨ (97 ≤ c.toNat ∧ c.toNat ≤ 122) ∨
    (48 ≤ c.toNat ∧ c.toNat ≤ 57) ∨ c.toNat = 95 ∨
    (0x1780 ≤ c.toNat ∧ c.toNat ≤ 0x17B3) ∨ (0x17E0 ≤ c.toNat ∧ c.toNat ≤ 0x17E9))

/-- Whitespace as stripped by the str.strip method of Python (on the modelled
repertoire): space, tab, newline, carriage return, vertical tab, form feed. -/
def pyWhitespace (c : Char) : Bool :=
  decide (c.toNat = 32 ∨ c.toNat = 9 ∨ c.toNat = 10 ∨ c.toNat = 13 ∨
    c.toNat = 11 ∨ c.toNat = 12)

/-- The character class of the regex in clean_line (src/main.py line 37):
digits, non-word characters, and the underscore. -/
def stripClass (c : Char) : Bool :=
  pyDigit c || !pyWordChar c || decide (c.toNat = 95)

/-- Letters: ASCII letters and Khmer letters.  This is the spec-side notion
used by the claims about clean_line (a letter is exactly what the strip
class leaves alone). -/
def letterChar (c : Char) : Bool :=
  decide ((65 ≤ c.toNat ∧ c.toNat ≤ 90) ∨ (97 ≤ c.toNat ∧ c.toNat ≤ 122) ∨
    (0x1780 ≤ c.toNat ∧ c.toNat ≤ 0x17B3))

/-- Model of the str.strip method of Python: remove leading and trailing
whitespace. -/
def pyStrip (s : List Char) : List Char :=
  ((s.dropWhile pyWhitespace).reverse.dropWhile pyWhitespace).reverse

/-- Model of clean_line (src/main.py lines 35-37): remove the leading run of
characters matched by the anchored regex, then strip whitespace. -/
def clean_line (s : List Char) : List Char :=
  pyStrip (s.dropWhile stripClass)

theorem stripClass_eq_not_letter (c : Char) : stripClass c = !letterChar c := by
  have h : stripClass c = true ↔ ¬ letterChar c = true := by
    simp only [stripClass, pyDigit, pyWordChar, letterChar, Bool.or_eq_true,
      Bool.not_eq_true', decide_eq_true_eq, decide_eq_false_iff_not]
    omega
  cases hl : letterChar c
  · simp only [hl, Bool.not_false]
    simp [hl] at h
    exact h
  · simp only [hl, Bool.not_true]
    simp [hl] at h
    exact h

theorem whitespace_in_stripClass (c : Char) (h : pyWhitespace c = true) :
    stripClass c = true := by
  simp only [pyWhitespace, decide_eq_true_eq] at h
  simp only [stripClass, pyDigit, pyWordChar, Bool.or_eq_true, Bool.not_eq_true',
    decide_eq_true_eq, decide_eq_false_iff_not]
  omega

theorem not_whitespace_of_not_stripClass (c : Char) (h : stripClass c = false) :
    pyWhitespace c = false := by
  cases hw : pyWhitespace c
  · rfl
  · rw [whitespace_in_stripClass c hw] at h
    exact absurd h (by simp)

theorem dropWhile_head_false (p : Char → Bool) (l : List Char) :
    ∀ c cs, l.dropWhile p = c :: cs → p c = false := by
  induction l with
  | nil => intro c cs h; simp [List.dropWhile] at h
  | cons a l ih =>
    intro c cs h
    rw [List.dropWhile_cons] at h
    by_cases ha : p a = true
    · rw [if_pos ha] at h
      exact ih c cs h
    · rw [if_neg ha] at h
      cases h
      simpa using ha

theorem dropWhile_of_head_false (p : Char → Bool) (l : List Char)
    (h : ∀ c cs, l = c :: cs → p c = false) : l.dropWhile p = l := by
  cases l with
  | nil => rfl
  | cons a l =>
    rw [List.dropWhile_cons, if_neg]
    simp [h a l rfl]

/-- Right trim: remove trailing whitespace. -/
def rtrim (l : List Char) : List Char :=
  (l.reverse.dropWhile pyWhitespace).reverse

theorem rtrim_append (l : List Char) :
    l = rtrim l ++ (l.reverse.takeWhile pyWhitespace).reverse := by
  unfold rtrim
  rw [← List.reverse_append, List.takeWhile_append_dropWhile, List.reverse_reverse]

theorem rtrim_head (l : List Char) (c : Char) (cs : List Char)
    (h : rtrim l = c :: cs) : ∃ ds, l = c :: ds := by
  have := rtrim_append l
  rw [h] at this
  exact ⟨cs ++ (l.reverse.takeWhile pyWhitespace).reverse, by simpa using this⟩

theorem pyStrip_eq_rtrim (l : List Char)
    (h : ∀ c cs, l = c :: cs → pyWhitespace c = false) :
    pyStrip l = rtrim l := by
  unfold pyStrip rtrim
  rw [dropWhile_of_head_false _ _ h]

theorem rtrim_rtrim (l : List Char) : rtrim (rtrim l) = rtrim l := by
  unfold rtrim
  rw [List.reverse_reverse, dropWhile_of_head_false _ (l.reverse.dropWhile pyWhitespace)
    (fun c cs h => dropWhile_head_false pyWhitespace l.reverse c cs h)]

/-- The head of the fully cleaned string (if any) survives the strip class. -/
theorem clean_line_head (s : List Char) (c : Char) (cs : List Char)
    (h : clean_line s = c :: cs) : stripClass c = false := by
  unfold clean_line at h
  rw [pyStrip_eq_rtrim _ (fun d ds hd =>
    not_whitespace_of_not_stripClass d
      (dropWhile_head_false stripClass s d ds hd))] at h
  obtain ⟨ds, hds⟩ := rtrim_head _ _ _ h
  exact dropWhile_head_false stripClass s c ds hds

/-- C10 helper: stripping is idempotent on clean results. -/
theorem pyStrip_clean_line (s : List Char) :
    pyStrip (clean_line s) = clean_line s := by
  have hhead : ∀ c cs, clean_line s = c :: cs → pyWhitespace c = false :=
    fun c cs h => not_whitespace_of_not_stripClass c (clean_line_head s c cs h)
  rw [pyStrip_eq_rtrim _ hhead]
  unfold clean_line
  rw [pyStrip_eq_rtrim _ (fun d ds hd =>
    not_whitespace_of_not_stripClass d
      (dropWhile_head_false stripClass s d ds hd))]
  exact rtrim_rtrim _

/-- C10: clean_line is idempotent. -/
theorem clean_line_idem_aux (s : List Char) :
    clean_line (clean_line s) = clean_line s := by
  conv_lhs => rw [clean_line]
  rw [dropWhile_of_head_false stripClass (clean_line s)
    (fun c cs h => clean_line_head s c cs h)]
  exact pyStrip_clean_line s

/-- C10: for every string s, clean_line (clean_line s) = clean_line s; the
result of clean_line is either empty or begins with a letter and carries no
surrounding whitespace, so a second application leaves it unchanged. -/
theorem c10_clean_line_idempotent :
    (∀ s : List Char, clean_line (clean_line s) = clean_line s) ∧
    (∀ s c cs, clean_line s = c :: cs → letterChar c = true) := by
  constructor
  · exact clean_line_idem_aux
  · intro s c cs h
    have := clean_line_head s c cs h
    rw [stripClass_eq_not_letter] at this
    simpa using this

/-- C6: clean_line strips a leading maximal run of non-letter characters
(digits, punctuation, underscore, whitespace) and then trims surrounding
whitespace; in particular it maps "1. Hello" to "Hello", a blank string to
the empty string, and a bullet-prefixed "Bonjour" to "Bonjour". -/
theorem c6_clean_line_contract :
    (∀ s : List Char, clean_line s = pyStrip (s.dropWhile (fun c => !letterChar c))) ∧
    clean_line "1. Hello".data = "Hello".data ∧
    clean_line "   ".data = [] ∧
    clean_line ('•' :: "  Bonjour".data) = "Bonjour".data := by
  refine ⟨?_, by decide, by decide, by decide⟩
  intro s
  unfold clean_line
  rw [show stripClass = (fun c => !letterChar c) from funext stripClass_eq_not_letter]

/-! ## Text extractor (extract_english_khmer, src/main.py lines 128-167) -/

/-- Lowercasing of a character, as applied by the IGNORECASE regex flag and
the str.lower method (ASCII letters on the modelled repertoire). -/
def lowerChar (c : Char) : Char :=
  if 65 ≤ c.toNat ∧ c.toNat ≤ 90 then Char.ofNat (c.toNat + 32) else c

/-- Case-insensitive prefix test; the pattern is given in lowercase. -/
def ciHasPrefix : List Char → List Char → Bool
  | [], _ => true
  | _ :: _, [] => false
  | p :: ps, c :: cs => (lowerChar c == p) && ciHasPrefix ps cs

/-- Case-insensitive substring test; the pattern is given in lowercase. -/
def containsSubCI (pat : List Char) : List Char → Bool
  | [] => pat.isEmpty
  | c :: rest => ciHasPrefix pat (c :: rest) || containsSubCI pat rest

/-- Leftmost case-insensitive occurrence of the pattern: returns the text
before the occurrence and the text after it (the semantics of re.search with
a literal pattern under IGNORECASE and DOTALL). -/
def splitMarkerCI (pat : List Char) : List Char → Option (List Char × List Char)
  | [] => if pat.isEmpty then some ([], []) else none
  | c :: rest =>
    if ciHasPrefix pat (c :: rest) then some ([], (c :: rest).drop pat.length)
    else
      match splitMarkerCI pat rest with
      | none => none
      | some (b, a) => some (c :: b, a)

/-- Case-sensitive prefix test (the str.startswith method). -/
def csHasPrefix : List Char → List Char → Bool
  | [], _ => true
  | _ :: _, [] => false
  | p :: ps, c :: cs => (c == p) && csHasPrefix ps cs

/-- Case-sensitive substring test (the Python in operator on strings). -/
def containsSub (pat : List Char) : List Char → Bool
  | [] => pat.isEmpty
  | c :: rest => csHasPrefix pat (c :: rest) || containsSub pat rest

/-- Characters at which the str.splitlines method of Python breaks: newline,
carriage return, vertical tab, form feed, the file, group and record
separators, the next-line character, and the Unicode line and paragraph
separators.  A carriage return immediately followed by a newline counts as
one single break. -/
def lineBreak (c : Char) : Bool :=
  decide (c.toNat = 10 ∨ c.toNat = 13 ∨ c.toNat = 11 ∨ c.toNat = 12 ∨
    c.toNat = 28 ∨ c.toNat = 29 ∨ c.toNat = 30 ∨ c.toNat = 133 ∨
    c.toNat = 0x2028 ∨ c.toNat = 0x2029)

/-- Model of the str.splitlines method: segments between line boundaries
(the full boundary set of Python, a carriage-return newline pair counting
as one break), with no trailing empty segment for a trailing boundary. -/
def pySplitlines : List Char → List (List Char)
  | [] => []
  | '\r' :: '\n' :: rest => [] :: pySplitlines rest
  | c :: rest =>
    if lineBreak c then [] :: pySplitlines rest
    else
      match pySplitlines rest with
      | [] => [[c]]
      | l :: ls => (c :: l) :: ls

/-- Joining with a newline separator (the str.join method on a newline). -/
def joinNl : List (List Char) → List Char
  | [] => []
  | [l] => l
  | l :: ls => l ++ '\n' :: joinNl ls

/-- The apostrophe character, written by code point. -/
def apos : Char := Char.ofNat 39

/-- The boilerplate page-header pattern of line 133. -/
def pagePat : List Char := "--- Page".data

/-- The boilerplate transcription pattern of line 135. -/
def transcriptPat : List Char :=
  "Here".data ++ apos :: "s a transcription of the text".data

/-- A line survives the boilerplate filter of lines 132-137 when its
stripped form does not start with the page header and it does not contain
the transcription notice. -/
def keepLine (l : List Char) : Bool :=
  !(csHasPrefix pagePat (pyStrip l)) && !(containsSub transcriptPat l)

/-- The English section marker, lowercased. -/
def engMarker : List Char := "english_text:".data

/-- The Khmer section marker, lowercased. -/
def khmMarker : List Char := "khmer_text:".data

/-- The literal token that a section must not equal (case-insensitively). -/
def noneTok : List Char := "none".data

/-- Lines 130-138: remove boilerplate lines and re-join with newlines. -/
def filterBoiler (t : List Char) : List Char :=
  joinNl ((pySplitlines t).filter keepLine)

/-- Lines 157-165: strip the captured group; if it equals the none token
case-insensitively the section is empty, otherwise it is the stripped
capture. -/
def sectionValue (raw : List Char) : List Char :=
  let r := pyStrip raw
  if r.map lowerChar == noneTok then [] else r

/-- The English capture of the regex on line 144: everything after the
English marker up to the next Khmer marker, or to the end of the text.  The
anchor alternative can also stop just before a final newline, which the
subsequent strip makes indistinguishable from stopping at the end. -/
def engCapture (after : List Char) : List Char :=
  match splitMarkerCI khmMarker after with
  | none => after
  | some (b, _) => b

/-- Model of extract_english_khmer (src/main.py lines 128-167). -/
def extract_english_khmer (t : List Char) : List Char × List Char :=
  let cleaned := filterBoiler t
  let eng :=
    match splitMarkerCI engMarker cleaned with
    | none => []
    | some (_, after) => sectionValue (engCapture after)
  let khm :=
    match splitMarkerCI khmMarker cleaned with
    | none => []
    | some (_, after) => sectionValue after
  (eng, khm)

/-! ## Scanning lemmas -/

theorem ciHasPrefix_mono (pat : List Char) :
    ∀ l v, ciHasPrefix pat l = true → ciHasPrefix pat (l ++ v) = true := by
  induction pat with
  | nil => intro l v _; rfl
  | cons p ps ih =>
    intro l v h
    cases l with
    | nil => simp [ciHasPrefix] at h
    | cons c cs =>
      simp only [ciHasPrefix, Bool.and_eq_true] at h
      simp only [List.cons_append, ciHasPrefix, Bool.and_eq_true]
      exact ⟨h.1, ih cs v h.2⟩

theorem ciHasPrefix_append_nl (pat : List Char) (hnl : '\n' ∉ pat) :
    ∀ u v, ciHasPrefix pat (u ++ '\n' :: v) = true → ciHasPrefix pat u = true := by
  induction pat with
  | nil => intro u v _; rfl
  | cons p ps ih =>
    intro u v h
    cases u with
    | nil =>
      simp only [List.nil_append, ciHasPrefix, Bool.and_eq_true, beq_iff_eq] at h
      exfalso
      apply hnl
      have : lowerChar '\n' = '\n' := by decide
      rw [this] at h
      rw [← h.1]
      exact List.mem_cons_self _ _
    | cons c cs =>
      simp only [List.cons_append, ciHasPrefix, Bool.and_eq_true] at h ⊢
      exact ⟨h.1, ih (fun hm => hnl (List.mem_cons_of_mem _ hm)) cs v h.2⟩

theorem containsSubCI_nil_pat (l : List Char) : containsSubCI [] l = true := by
  cases l <;> simp [containsSubCI, ciHasPrefix, List.isEmpty]

theorem containsSubCI_mono_left (pat : List Char) :
    ∀ u w, containsSubCI pat w = true → containsSubCI pat (u ++ w) = true := by
  intro u
  induction u with
  | nil => intro w h; simpa using h
  | cons c u ih =>
    intro w h
    simp only [List.cons_append, containsSubCI, Bool.or_eq_true]
    exact Or.inr (ih w h)

theorem containsSubCI_mono_right (pat : List Char) :
    ∀ w v, containsSubCI pat w = true → containsSubCI pat (w ++ v) = true := by
  intro w
  induction w with
  | nil =>
    intro v h
    simp only [containsSubCI, List.isEmpty_iff] at h
    subst h
    exact containsSubCI_nil_pat v
  | cons c w ih =>
    intro v h
    simp only [containsSubCI, Bool.or_eq_true] at h
    simp only [List.cons_append, containsSubCI, Bool.or_eq_true]
    cases h with
    | inl h => exact Or.inl (by simpa using ciHasPrefix_mono pat (c :: w) v h)
    | inr h => exact Or.inr (ih v h)

theorem containsSubCI_split_nl (pat : List Char) (hnl : '\n' ∉ pat) :
    ∀ u v, containsSubCI pat (u ++ '\n' :: v) = true →
      containsSubCI pat u = true ∨ containsSubCI pat v = true := by
  intro u
  induction u with
  | nil =>
    intro v h
    simp only [List.nil_append, containsSubCI, Bool.or_eq_true] at h
    cases h with
    | inl h =>
      have h0 : ciHasPrefix pat [] = true :=
        ciHasPrefix_append_nl pat hnl [] v (by simpa using h)
      cases pat with
      | nil => exact Or.inl (containsSubCI_nil_pat [])
      | cons p ps => simp [ciHasPrefix] at h0
    | inr h => exact Or.inr h
  | cons c u ih =>
    intro v h
    simp only [List.cons_append, containsSubCI, Bool.or_eq_true] at h
    cases h with
    | inl h =>
      have := ciHasPrefix_append_nl pat hnl (c :: u) v (by simpa using h)
      exact Or.inl (by simp only [containsSubCI, Bool.or_eq_true]; exact Or.inl this)
    | inr h =>
      cases ih v h with
      | inl h2 =>
        exact Or.inl (by simp only [containsSubCI, Bool.or_eq_true]; exact Or.inr h2)
      | inr h2 => exact Or.inr h2

theorem containsSubCI_nil_false (pat : List Char) (hp : pat ≠ []) :
    containsSubCI pat [] = false := by
  cases pat with
  | nil => exact absurd rfl hp
  | cons p ps => rfl

theorem pySplitlines_crlf (rest : List Char) :
    pySplitlines ('\r' :: '\n' :: rest) = [] :: pySplitlines rest := by
  simp [pySplitlines]

theorem pySplitlines_cr_nonl (rest : List Char)
    (h : ∀ r2 : List Char, rest ≠ '\n' :: r2) :
    pySplitlines ('\r' :: rest) = [] :: pySplitlines rest := by
  cases rest with
  | nil => rfl
  | cons c2 r2 =>
    have hc2 : c2 ≠ '\n' := fun hh => h r2 (by rw [hh])
    simp [pySplitlines, hc2, show lineBreak '\r' = true from by decide]

theorem pySplitlines_break (c : Char) (rest : List Char)
    (hb : lineBreak c = true) (hc : c ≠ '\r') :
    pySplitlines (c :: rest) = [] :: pySplitlines rest := by
  simp [pySplitlines, hc, hb]

theorem pySplitlines_norm (c : Char) (rest : List Char)
    (hb : lineBreak c = false) :
    pySplitlines (c :: rest) =
      match pySplitlines rest with
      | [] => [[c]]
      | l :: ls => (c :: l) :: ls := by
  have hc : c ≠ '\r' := by
    intro h
    rw [h] at hb
    exact absurd hb (by decide)
  simp [pySplitlines, hc, hb]

theorem pySplitlines_head_decomp :
    ∀ (t l₀ : List Char) (ls : List (List Char)),
      pySplitlines t = l₀ :: ls → ∃ v, t = l₀ ++ v := by
  intro t
  induction t with
  | nil => intro l₀ ls h; simp [pySplitlines] at h
  | cons c rest ih =>
    intro l₀ ls h
    by_cases hb : lineBreak c = true
    · by_cases hr : c = '\r'
      · subst hr
        cases rest with
        | nil =>
          rw [pySplitlines_cr_nonl [] (fun r2 hh => List.noConfusion hh)] at h
          injection h with h1 h2
          exact ⟨'\r' :: [], by rw [← h1]; rfl⟩
        | cons c2 r2 =>
          by_cases hn : c2 = '\n'
          · subst hn
            rw [pySplitlines_crlf r2] at h
            injection h with h1 h2
            exact ⟨'\r' :: '\n' :: r2, by rw [← h1]; rfl⟩
          · rw [pySplitlines_cr_nonl (c2 :: r2)
              (fun r3 hh => hn (by injection hh))] at h
            injection h with h1 h2
            exact ⟨'\r' :: c2 :: r2, by rw [← h1]; rfl⟩
      · rw [pySplitlines_break c rest hb hr] at h
        injection h with h1 h2
        exact ⟨c :: rest, by rw [← h1]; rfl⟩
    · have hb2 : lineBreak c = false := by simpa using hb
      rw [pySplitlines_norm c rest hb2] at h
      cases hr : pySplitlines rest with
      | nil =>
        rw [hr] at h
        injection h with h1 h2
        exact ⟨rest, by rw [← h1]; rfl⟩
      | cons m ms =>
        rw [hr] at h
        injection h with h1 h2
        obtain ⟨v, hv⟩ := ih m ms hr
        exact ⟨v, by rw [← h1, hv]; rfl⟩

theorem containsSubCI_of_mem_splitlines (pat : List Char) (hp : pat ≠ []) :
    ∀ t l, l ∈ pySplitlines t → containsSubCI pat l = true →
      containsSubCI pat t = true := by
  intro t
  induction t with
  | nil => intro l hl; simp [pySplitlines] at hl
  | cons c rest ih =>
    intro l hl hc
    by_cases hb : lineBreak c = true
    · by_cases hr : c = '\r'
      · subst hr
        cases rest with
        | nil =>
          rw [pySplitlines_cr_nonl [] (fun r2 hh => List.noConfusion hh)] at hl
          rcases List.mem_cons.mp hl with h1 | h2
          · subst h1
            rw [containsSubCI_nil_false pat hp] at hc
            exact absurd hc (by simp)
          · simp [pySplitlines] at h2
        | cons c2 r2 =>
          by_cases hn : c2 = '\n'
          · subst hn
            rw [pySplitlines_crlf r2] at hl
            rcases List.mem_cons.mp hl with h1 | h2
            · subst h1
              rw [containsSubCI_nil_false pat hp] at hc
              exact absurd hc (by simp)
            · have hmem : l ∈ pySplitlines ('\n' :: r2) := by
                rw [pySplitlines_break '\n' r2 (by decide) (by decide)]
                exact List.mem_cons_of_mem _ h2
              have := ih l hmem hc
              exact containsSubCI_mono_left pat ['\r'] ('\n' :: r2) this
          · rw [pySplitlines_cr_nonl (c2 :: r2)
              (fun r3 hh => hn (by injection hh))] at hl
            rcases List.mem_cons.mp hl with h1 | h2
            · subst h1
              rw [containsSubCI_nil_false pat hp] at hc
              exact absurd hc (by simp)
            · have := ih l h2 hc
              exact containsSubCI_mono_left pat ['\r'] (c2 :: r2) this
      · rw [pySplitlines_break c rest hb hr] at hl
        rcases List.mem_cons.mp hl with h1 | h2
        · subst h1
          rw [containsSubCI_nil_false pat hp] at hc
          exact absurd hc (by simp)
        · have := ih l h2 hc
          exact containsSubCI_mono_left pat [c] rest this
    · have hb2 : lineBreak c = false := by simpa using hb
      rw [pySplitlines_norm c rest hb2] at hl
      cases hr : pySplitlines rest with
      | nil =>
        rw [hr] at hl
        simp only [List.mem_singleton] at hl
        subst hl
        have := containsSubCI_mono_right pat [c] rest hc
        simpa using this
      | cons m ms =>
        rw [hr] at hl
        rcases List.mem_cons.mp hl with h1 | h2
        · subst h1
          obtain ⟨v, hv⟩ := pySplitlines_head_decomp rest m ms hr
          have := containsSubCI_mono_right pat (c :: m) v hc
          rw [hv]
          simpa using this
        · have hmem : l ∈ pySplitlines rest := by
            rw [hr]; exact List.mem_cons_of_mem _ h2
          have := ih l hmem hc
          simp only [containsSubCI, Bool.or_eq_true]
          exact Or.inr this

theorem containsSubCI_joinNl (pat : List Char) (hnl : '\n' ∉ pat) (hp : pat ≠ []) :
    ∀ ls, containsSubCI pat (joinNl ls) = true →
      ∃ l ∈ ls, containsSubCI pat l = true := by
  intro ls
  induction ls with
  | nil =>
    intro h
    simp only [joinNl, containsSubCI] at h
    exact absurd (List.isEmpty_iff.mp h) hp
  | cons l ls ih =>
    intro h
    cases ls with
    | nil => exact ⟨l, by simp, by simpa [joinNl] using h⟩
    | cons m ms =>
      rw [show joinNl (l :: m :: ms) = l ++ '\n' :: joinNl (m :: ms) from rfl] at h
      cases containsSubCI_split_nl pat hnl l (joinNl (m :: ms)) h with
      | inl h1 => exact ⟨l, by simp, h1⟩
      | inr h1 =>
        obtain ⟨x, hx1, hx2⟩ := ih h1
        exact ⟨x, List.mem_cons_of_mem _ hx1, hx2⟩

theorem splitMarkerCI_none_iff (pat : List Char) :
    ∀ t, splitMarkerCI pat t = none ↔ containsSubCI pat t = false := by
  intro t
  induction t with
  | nil =>
    by_cases hp : pat.isEmpty
    · simp [splitMarkerCI, containsSubCI, hp]
    · simp [splitMarkerCI, containsSubCI, hp]
  | cons c rest ih =>
    by_cases hpf : ciHasPrefix pat (c :: rest) = true
    · simp [splitMarkerCI, containsSubCI, hpf]
    · have hpf' : ciHasPrefix pat (c :: rest) = false := by simpa using hpf
      simp only [splitMarkerCI, if_neg hpf, containsSubCI, hpf', Bool.false_or]
      cases hs : splitMarkerCI pat rest with
      | none =>
        simp only [hs] at ih
        simpa using ih
      | some ba =>
        obtain ⟨b, a⟩ := ba
        simp only [hs] at ih
        simpa using ih

theorem splitMarkerCI_skip (p : Char) (ps : List Char) :
    ∀ u w, (∀ c ∈ u, lowerChar c ≠ p) →
      splitMarkerCI (p :: ps) (u ++ w) =
        (splitMarkerCI (p :: ps) w).map (fun q => (u ++ q.1, q.2)) := by
  intro u
  induction u with
  | nil =>
    intro w _
    simp only [List.nil_append]
    cases splitMarkerCI (p :: ps) w with
    | none => rfl
    | some q => cases q; rfl
  | cons c u ih =>
    intro w hu
    have h1 : ciHasPrefix (p :: ps) (c :: (u ++ w)) = false := by
      have hne : lowerChar c ≠ p := hu c (by simp)
      simp [ciHasPrefix, hne]
    simp only [List.cons_append, splitMarkerCI, List.append_eq, if_neg (by simp [h1] :
      ¬ ciHasPrefix (p :: ps) (c :: (u ++ w)) = true)]
    rw [ih w (fun d hd => hu d (List.mem_cons_of_mem _ hd))]
    cases splitMarkerCI (p :: ps) w with
    | none => rfl
    | some q => cases q; rfl

theorem filterBoiler_marker_absent (pat : List Char) (hnl : '\n' ∉ pat)
    (hp : pat ≠ []) (t : List Char) (h : containsSubCI pat t = false) :
    splitMarkerCI pat (filterBoiler t) = none := by
  rw [splitMarkerCI_none_iff]
  cases hc : containsSubCI pat (filterBoiler t) with
  | false => rfl
  | true =>
    exfalso
    obtain ⟨l, hl1, hl2⟩ := containsSubCI_joinNl pat hnl hp _ hc
    have hl3 : l ∈ pySplitlines t := (List.mem_filter.mp hl1).1
    have h4 := containsSubCI_of_mem_splitlines pat hp t l hl3 hl2
    rw [h] at h4
    exact absurd h4 (by simp)

theorem extract_eng_of_absent (t : List Char)
    (h : containsSubCI engMarker t = false) :
    (extract_english_khmer t).1 = [] := by
  simp only [extract_english_khmer]
  rw [filterBoiler_marker_absent engMarker (by decide) (by decide) t h]

theorem extract_khm_of_absent (t : List Char)
    (h : containsSubCI khmMarker t = false) :
    (extract_english_khmer t).2 = [] := by
  simp only [extract_english_khmer]
  rw [filterBoiler_marker_absent khmMarker (by decide) (by decide) t h]

/-- C4: when the trimmed captured content of a section equals the none token
case-insensitively, extract returns the empty string for that section,
never the literal token itself. -/
theorem c4_none_section_empty (t before after : List Char) :
    (splitMarkerCI engMarker (filterBoiler t) = some (before, after) →
      (pyStrip (engCapture after)).map lowerChar = noneTok →
      (extract_english_khmer t).1 = []) ∧
    (splitMarkerCI khmMarker (filterBoiler t) = some (before, after) →
      (pyStrip after).map lowerChar = noneTok →
      (extract_english_khmer t).2 = []) := by
  constructor
  · intro h1 h2
    simp only [extract_english_khmer, h1]
    simp only [sectionValue]
    rw [if_pos (by simp [h2])]
  · intro h1 h2
    simp only [extract_english_khmer, h1]
    simp only [sectionValue]
    rw [if_pos (by simp [h2])]

/-- C4 witness: both sections carrying the none token come out empty. -/
theorem c4_none_section_empty_witness :
    (extract_english_khmer "English_Text: none\nKhmer_Text: NONE".data).1 = [] ∧
    (extract_english_khmer "English_Text: none\nKhmer_Text: NONE".data).2 = [] :=
  ⟨(c4_none_section_empty "English_Text: none\nKhmer_Text: NONE".data
      [] " none\nKhmer_Text: NONE".data).1 (by decide) (by decide),
   (c4_none_section_empty "English_Text: none\nKhmer_Text: NONE".data
      "English_Text: none\n".data " NONE".data).2 (by decide) (by decide)⟩

/-! ## Batch pipeline (process_multiple_pdfs_to_csv, src/main.py lines 179-267) -/

/-- One output row of the CSV artifact: id, english text, khmer text. -/
structure Row where
  id : Nat
  eng : List Char
  khm : List Char
  deriving DecidableEq

/-- Environment of one page: whether page-to-image conversion yields an
image, the response text of the language-detection capability (none models
an exception inside detect_languages_in_image), and the response of the OCR
capability (the error side carries the message text of the provider). -/
structure PageEnv where
  convertOk : Bool
  detectRes : Option (List Char)
  ocr : Except (List Char) (List Char)

/-- Environment of one document: whether the download succeeds, and the
pages the rasterizer reports. -/
structure DocEnv where
  downloadOk : Bool
  pages : List PageEnv

/-- Uppercasing of a character (ASCII on the modelled repertoire). -/
def upperChar (c : Char) : Char :=
  if 97 ≤ c.toNat ∧ c.toNat ≤ 122 then Char.ofNat (c.toNat - 32) else c

/-- Model of the str.capitalize method: first character uppercased, the
rest lowercased. -/
def pyCapitalize : List Char → List Char
  | [] => []
  | c :: rest => upperChar c :: rest.map lowerChar

/-- Lines 76-97: the verdict string of detect_languages_in_image (response
text stripped then capitalized); a detection exception yields None. -/
def detectVerdict (p : PageEnv) : List Char :=
  match p.detectRes with
  | none => "None".data
  | some r => pyCapitalize (pyStrip r)

/-- The allow-list of line 224. -/
def allowedVerdicts : List (List Char) :=
  ["English".data, "Khmer".data, "Both".data]

/-- Lines 116-117: an OCR failure is quota exhaustion when the error text
contains 429 or, case-insensitively, quota. -/
def isQuotaError (e : List Char) : Bool :=
  containsSub "429".data e || containsSub "quota".data (e.map lowerChar)

/-- Line 123: the synthetic message returned for a transient OCR failure. -/
def errorPlaceholder (i : Nat) (e : List Char) : List Char :=
  "[Error processing page ".data ++ (Nat.repr i).data ++ "]: ".data ++ e

/-- Lines 247-248: split a section into cleaned, nonempty lines. -/
def cleanedLines (s : List Char) : List (List Char) :=
  ((pySplitlines s).map clean_line).filter (fun l => !l.isEmpty)

/-- Lines 250-253: one row per English line of length above three, khmer
field empty, ids counted up from rid. -/
def emitEng (rid : Nat) : List (List Char) → Nat × List Row
  | [] => (rid, [])
  | l :: ls =>
    if 3 < l.length then
      let r := emitEng (rid + 1) ls
      (r.1, ⟨rid, l, []⟩ :: r.2)
    else emitEng rid ls

/-- Lines 255-258: one row per Khmer line of length above three, english
field empty, ids counted up from rid. -/
def emitKhm (rid : Nat) : List (List Char) → Nat × List Row
  | [] => (rid, [])
  | l :: ls =>
    if 3 < l.length then
      let r := emitKhm (rid + 1) ls
      (r.1, ⟨rid, [], l⟩ :: r.2)
    else emitKhm rid ls

/-- Lines 244-258: extract, clean and emit the rows of one page text. -/
def pageEmit (rid : Nat) (text : List Char) : Nat × List Row :=
  let ek := extract_english_khmer text
  let e := emitEng rid (cleanedLines ek.1)
  let k := emitKhm e.1 (cleanedLines ek.2)
  (k.1, e.2 ++ k.2)

/-- Lines 207-264: the per-page loop of one document, with the 1-based page
index i.  The RAM gate, the image release and the inter-page delay are
timing effects with no bearing on the computed rows.  An error result
carries the rows accumulated when quota exhaustion aborted the run. -/
def runPages (i rid : Nat) (rows : List Row) :
    List PageEnv → Except (List Row) (Nat × List Row)
  | [] => Except.ok (rid, rows)
  | p :: ps =>
    if p.convertOk = false then runPages (i + 1) rid rows ps
    else if allowedVerdicts.contains (detectVerdict p) = false then
      runPages (i + 1) rid rows ps
    else
      match p.ocr with
      | Except.error e =>
        if isQuotaError e then Except.error rows
        else
          let r := pageEmit rid (errorPlaceholder i e)
          runPages (i + 1) r.1 (rows ++ r.2) ps
      | Except.ok t =>
        let r := pageEmit rid t
        runPages (i + 1) r.1 (rows ++ r.2) ps

/-- Lines 190-241: the per-document loop; an error result carries the
partial rows of a quota abort. -/
def runDocs (rid : Nat) (rows : List Row) :
    List DocEnv → Except (List Row) (Nat × List Row)
  | [] => Except.ok (rid, rows)
  | d :: ds =>
    if d.downloadOk = false then runDocs rid rows ds
    else if 20 < d.pages.length then runDocs rid rows ds
    else
      match runPages 1 rid rows d.pages with
      | Except.error r => Except.error r
      | Except.ok (rid2, rows2) => runDocs rid2 rows2 ds

/-- Model of process_multiple_pdfs_to_csv: the rows saved to the artifact
and the aborted flag (true when the run stopped on quota exhaustion; the
artifact then holds exactly the rows accumulated so far). -/
def process_multiple_pdfs_to_csv (docs : List DocEnv) : List Row × Bool :=
  match runDocs 1 [] docs with
  | Except.error r => (r, true)
  | Except.ok (_, r) => (r, false)

/-! ## Emission policy -/

/-- Lines of length above three, kept in order. -/
def bigLines (ls : List (List Char)) : List (List Char) :=
  ls.filter (fun l => decide (3 < l.length))

/-- The English rows which the independent-line policy predicts: ids
counted up from rid, khmer field empty. -/
def engRowsOf (rid : Nat) (ls : List (List Char)) : List Row :=
  (List.zip (List.range' rid (bigLines ls).length) (bigLines ls)).map
    (fun q => ⟨q.1, q.2, []⟩)

/-- The Khmer rows which the independent-line policy predicts: ids counted
up from rid, english field empty. -/
def khmRowsOf (rid : Nat) (ls : List (List Char)) : List Row :=
  (List.zip (List.range' rid (bigLines ls).length) (bigLines ls)).map
    (fun q => ⟨q.1, [], q.2⟩)

theorem emitEng_eq (ls : List (List Char)) : ∀ rid,
    emitEng rid ls = (rid + (bigLines ls).length, engRowsOf rid ls) := by
  induction ls with
  | nil => intro rid; simp [emitEng, bigLines, engRowsOf]
  | cons l ls ih =>
    intro rid
    by_cases h : 3 < l.length
    · have hb : bigLines (l :: ls) = l :: bigLines ls := by
        simp [bigLines, List.filter_cons, h]
      have hr : engRowsOf rid (l :: ls) = ⟨rid, l, []⟩ :: engRowsOf (rid + 1) ls := by
        simp only [engRowsOf, hb, List.length_cons, List.range'_succ,
          List.zip_cons_cons, List.map_cons]
      rw [show emitEng rid (l :: ls)
          = ((emitEng (rid + 1) ls).1, ⟨rid, l, []⟩ :: (emitEng (rid + 1) ls).2)
        from by simp [emitEng, h]]
      rw [ih (rid + 1), hr, hb]
      simp only [List.length_cons]
      rw [show rid + 1 + (bigLines ls).length = rid + ((bigLines ls).length + 1)
        from by omega]
    · have hb : bigLines (l :: ls) = bigLines ls := by
        simp [bigLines, List.filter_cons, h]
      have hr : engRowsOf rid (l :: ls) = engRowsOf rid ls := by
        simp only [engRowsOf, hb]
      rw [show emitEng rid (l :: ls) = emitEng rid ls from by simp [emitEng, h],
        ih rid, hr, hb]

theorem emitKhm_eq (ls : List (List Char)) : ∀ rid,
    emitKhm rid ls = (rid + (bigLines ls).length, khmRowsOf rid ls) := by
  induction ls with
  | nil => intro rid; simp [emitKhm, bigLines, khmRowsOf]
  | cons l ls ih =>
    intro rid
    by_cases h : 3 < l.length
    · have hb : bigLines (l :: ls) = l :: bigLines ls := by
        simp [bigLines, List.filter_cons, h]
      have hr : khmRowsOf rid (l :: ls) = ⟨rid, [], l⟩ :: khmRowsOf (rid + 1) ls := by
        simp only [khmRowsOf, hb, List.length_cons, List.range'_succ,
          List.zip_cons_cons, List.map_cons]
      rw [show emitKhm rid (l :: ls)
          = ((emitKhm (rid + 1) ls).1, ⟨rid, [], l⟩ :: (emitKhm (rid + 1) ls).2)
        from by simp [emitKhm, h]]
      rw [ih (rid + 1), hr, hb]
      simp only [List.length_cons]
      rw [show rid + 1 + (bigLines ls).length = rid + ((bigLines ls).length + 1)
        from by omega]
    · have hb : bigLines (l :: ls) = bigLines ls := by
        simp [bigLines, List.filter_cons, h]
      have hr : khmRowsOf rid (l :: ls) = khmRowsOf rid ls := by
        simp only [khmRowsOf, hb]
      rw [show emitKhm rid (l :: ls) = emitKhm rid ls from by simp [emitKhm, h],
        ih rid, hr, hb]

theorem pageEmit_eq (rid : Nat) (text : List Char) :
    pageEmit rid text =
      (rid + (bigLines (cleanedLines (extract_english_khmer text).1)).length
         + (bigLines (cleanedLines (extract_english_khmer text).2)).length,
       engRowsOf rid (cleanedLines (extract_english_khmer text).1) ++
         khmRowsOf
           (rid + (bigLines (cleanedLines (extract_english_khmer text).1)).length)
           (cleanedLines (extract_english_khmer text).2)) := by
  simp only [pageEmit, emitEng_eq, emitKhm_eq]

/-- C5: under the independent-line policy a processed page emits one row
per English cleaned line of length above three (khmer field empty) followed
by one row per Khmer cleaned line of length above three (english field
empty), with consecutive ids; cleaned lines of length at most three are
never emitted and no cross-language alignment occurs. -/
theorem c5_independent_line_policy (rid : Nat) (text : List Char) :
    pageEmit rid text =
      (rid + (bigLines (cleanedLines (extract_english_khmer text).1)).length
         + (bigLines (cleanedLines (extract_english_khmer text).2)).length,
       engRowsOf rid (cleanedLines (extract_english_khmer text).1) ++
         khmRowsOf
           (rid + (bigLines (cleanedLines (extract_english_khmer text).1)).length)
           (cleanedLines (extract_english_khmer text).2)) ∧
    (∀ l ∈ bigLines (cleanedLines (extract_english_khmer text).1), 3 < l.length) ∧
    (∀ l ∈ bigLines (cleanedLines (extract_english_khmer text).2), 3 < l.length) := by
  refine ⟨pageEmit_eq rid text, ?_, ?_⟩ <;>
    exact fun l hl => by simpa using (List.mem_filter.mp hl).2

/-! ## Row-id invariant -/

/-- The accumulated rows carry ids 1..n in order and the counter is n+1. -/
def IdsOk (rid : Nat) (rows : List Row) : Prop :=
  rows.map Row.id = List.range' 1 rows.length ∧ rid = rows.length + 1

theorem engRowsOf_ids (rid : Nat) (ls : List (List Char)) :
    (engRowsOf rid ls).map Row.id = List.range' rid (bigLines ls).length := by
  unfold engRowsOf
  rw [List.map_map]
  rw [show (Row.id ∘ fun q : Nat × List Char => (⟨q.1, q.2, []⟩ : Row)) = Prod.fst
    from rfl]
  exact List.map_fst_zip _ _ (by simp)

theorem khmRowsOf_ids (rid : Nat) (ls : List (List Char)) :
    (khmRowsOf rid ls).map Row.id = List.range' rid (bigLines ls).length := by
  unfold khmRowsOf
  rw [List.map_map]
  rw [show (Row.id ∘ fun q : Nat × List Char => (⟨q.1, [], q.2⟩ : Row)) = Prod.fst
    from rfl]
  exact List.map_fst_zip _ _ (by simp)

theorem engRowsOf_length (rid : Nat) (ls : List (List Char)) :
    (engRowsOf rid ls).length = (bigLines ls).length := by
  simp [engRowsOf]

theorem khmRowsOf_length (rid : Nat) (ls : List (List Char)) :
    (khmRowsOf rid ls).length = (bigLines ls).length := by
  simp [khmRowsOf]

theorem pageEmit_ids (rid : Nat) (text : List Char) :
    (pageEmit rid text).2.map Row.id =
      List.range' rid (pageEmit rid text).2.length ∧
    (pageEmit rid text).1 = rid + (pageEmit rid text).2.length := by
  simp only [pageEmit_eq]
  constructor
  · simp only [List.map_append, engRowsOf_ids, khmRowsOf_ids, List.length_append,
      engRowsOf_length, khmRowsOf_length, List.range'_append_1]
    congr 1
    omega
  · simp only [List.length_append, engRowsOf_length, khmRowsOf_length]
    omega

theorem idsOk_append (rows newRows : List Row) (rid rid2 : Nat)
    (h : IdsOk rid rows)
    (hids : newRows.map Row.id = List.range' rid newRows.length)
    (hrid2 : rid2 = rid + newRows.length) :
    IdsOk rid2 (rows ++ newRows) := by
  obtain ⟨h1, h2⟩ := h
  constructor
  · rw [List.map_append, h1, hids, h2,
      show rows.length + 1 = 1 + rows.length from by omega,
      List.range'_append_1, List.length_append]
    congr 1
    omega
  · rw [List.length_append]
    omega

theorem idsOk_step (rid : Nat) (rows : List Row) (text : List Char)
    (h : IdsOk rid rows) :
    IdsOk (pageEmit rid text).1 (rows ++ (pageEmit rid text).2) :=
  idsOk_append rows _ rid _ h (pageEmit_ids rid text).1 (pageEmit_ids rid text).2

theorem runPages_idsOk (ps : List PageEnv) : ∀ i rid rows, IdsOk rid rows →
    (∀ r, runPages i rid rows ps = Except.error r →
      r.map Row.id = List.range' 1 r.length) ∧
    (∀ rid2 rows2, runPages i rid rows ps = Except.ok (rid2, rows2) →
      IdsOk rid2 rows2) := by
  induction ps with
  | nil =>
    intro i rid rows h
    constructor
    · intro r hr
      simp [runPages] at hr
    · intro rid2 rows2 hr
      simp only [runPages, Except.ok.injEq, Prod.mk.injEq] at hr
      rw [← hr.1, ← hr.2]
      exact h
  | cons p ps ih =>
    intro i rid rows h
    cases hcv : p.convertOk with
    | false =>
      simp only [runPages, hcv, if_pos]
      exact ih (i + 1) rid rows h
    | true =>
      cases hv : allowedVerdicts.contains (detectVerdict p) with
      | false =>
        simp only [runPages, hcv, hv]
        simp only [show (true = false) = False by simp, if_false, if_pos]
        exact ih (i + 1) rid rows h
      | true =>
        cases hocr : p.ocr with
        | error e =>
          cases hq : isQuotaError e with
          | true =>
            constructor
            · intro r hr
              simp only [runPages, hcv, hv, hocr, hq] at hr
              simp only [show (true = false) = False by simp, if_false,
                if_true, Except.error.injEq] at hr
              rw [← hr]
              exact h.1
            · intro rid2 rows2 hr
              simp only [runPages, hcv, hv, hocr, hq] at hr
              simp only [show (true = false) = False by simp, if_false,
                if_true] at hr
              exact Except.noConfusion hr
          | false =>
            have step := idsOk_step rid rows (errorPlaceholder i e) h
            have := ih (i + 1) _ _ step
            simp only [runPages, hcv, hv, hocr, hq]
            simp only [show (true = false) = False by simp, if_false,
              Bool.false_eq_true, if_true]
            exact this
        | ok t =>
          have step := idsOk_step rid rows t h
          have := ih (i + 1) _ _ step
          simp only [runPages, hcv, hv, hocr]
          simp only [show (true = false) = False by simp, if_false]
          exact this

theorem runDocs_idsOk (ds : List DocEnv) : ∀ rid rows, IdsOk rid rows →
    (∀ r, runDocs rid rows ds = Except.error r →
      r.map Row.id = List.range' 1 r.length) ∧
    (∀ rid2 rows2, runDocs rid rows ds = Except.ok (rid2, rows2) →
      IdsOk rid2 rows2) := by
  induction ds with
  | nil =>
    intro rid rows h
    constructor
    · intro r hr
      simp [runDocs] at hr
    · intro rid2 rows2 hr
      simp only [runDocs, Except.ok.injEq, Prod.mk.injEq] at hr
      rw [← hr.1, ← hr.2]
      exact h
  | cons d ds ih =>
    intro rid rows h
    cases hdl : d.downloadOk with
    | false =>
      simp only [runDocs, hdl, if_pos]
      exact ih rid rows h
    | true =>
      by_cases hcap : 20 < d.pages.length
      · simp only [runDocs, hdl, show (true = false) = False by simp, if_false,
          if_pos hcap]
        exact ih rid rows h
      · simp only [runDocs, hdl, show (true = false) = False by simp, if_false,
          if_neg hcap]
        cases hrp : runPages 1 rid rows d.pages with
        | error r =>
          constructor
          · intro r2 hr2
            simp only [hrp, Except.error.injEq] at hr2
            rw [← hr2]
            exact (runPages_idsOk d.pages 1 rid rows h).1 r hrp
          · intro rid2 rows2 hr2
            simp only [hrp] at hr2
            exact Except.noConfusion hr2
        | ok pr =>
          obtain ⟨rid3, rows3⟩ := pr
          have h3 : IdsOk rid3 rows3 :=
            (runPages_idsOk d.pages 1 rid rows h).2 rid3 rows3 hrp
          simp only [hrp]
          exact ih rid3 rows3 h3

/-- C2: over an entire batch run the ids of the emitted rows form exactly
the sequence 1, 2, ..., n in emission order, with no gaps or repeats,
whether the run completes or aborts on quota exhaustion. -/
theorem c2_row_ids (docs : List DocEnv) :
    (process_multiple_pdfs_to_csv docs).1.map Row.id =
      List.range' 1 (process_multiple_pdfs_to_csv docs).1.length := by
  have h0 : IdsOk 1 ([] : List Row) := ⟨rfl, rfl⟩
  have h := runDocs_idsOk docs 1 [] h0
  unfold process_multiple_pdfs_to_csv
  cases hr : runDocs 1 [] docs with
  | error r => simpa using h.1 r hr
  | ok pr =>
    obtain ⟨rid2, rows2⟩ := pr
    simpa using (h.2 rid2 rows2 hr).1

/-! ## Abort and skip behaviour -/

theorem runPages_append (pp qq : List PageEnv) : ∀ i rid rows,
    runPages i rid rows (pp ++ qq) =
      match runPages i rid rows pp with
      | Except.error r => Except.error r
      | Except.ok (rid2, rows2) => runPages (i + pp.length) rid2 rows2 qq := by
  induction pp with
  | nil =>
    intro i rid rows
    simp [runPages]
  | cons p pp ih =>
    intro i rid rows
    simp only [List.cons_append, runPages, List.append_eq, List.length_cons]
    cases hcv : p.convertOk with
    | false =>
      simp only [hcv, if_pos]
      rw [ih (i + 1) rid rows,
        show i + 1 + pp.length = i + (pp.length + 1) from by omega]
    | true =>
      simp only [hcv, show (true = false) = False by simp, if_false]
      cases hv : allowedVerdicts.contains (detectVerdict p) with
      | false =>
        simp only [hv, if_pos]
        rw [ih (i + 1) rid rows,
          show i + 1 + pp.length = i + (pp.length + 1) from by omega]
      | true =>
        simp only [hv, show (true = false) = False by simp, if_false]
        cases hocr : p.ocr with
        | error e =>
          simp only [hocr]
          cases hq : isQuotaError e with
          | true => simp only [hq, if_true]
          | false =>
            simp only [hq, Bool.false_eq_true, if_false]
            rw [ih (i + 1) _ _,
              show i + 1 + pp.length = i + (pp.length + 1) from by omega]
        | ok t =>
          simp only [hocr]
          rw [ih (i + 1) _ _,
            show i + 1 + pp.length = i + (pp.length + 1) from by omega]

theorem runDocs_append (pre ds : List DocEnv) : ∀ rid rows,
    runDocs rid rows (pre ++ ds) =
      match runDocs rid rows pre with
      | Except.error r => Except.error r
      | Except.ok (rid2, rows2) => runDocs rid2 rows2 ds := by
  induction pre with
  | nil =>
    intro rid rows
    simp [runDocs]
  | cons d pre ih =>
    intro rid rows
    simp only [List.cons_append, runDocs]
    cases hdl : d.downloadOk with
    | false =>
      simp only [hdl, if_pos]
      exact ih rid rows
    | true =>
      simp only [hdl, show (true = false) = False by simp, if_false]
      by_cases hcap : 20 < d.pages.length
      · simp only [if_pos hcap]
        exact ih rid rows
      · simp only [if_neg hcap]
        cases hrp : runPages 1 rid rows d.pages with
        | error r => simp only [hrp]
        | ok pr =>
          obtain ⟨rid3, rows3⟩ := pr
          simp only [hrp]
          exact ih rid3 rows3

/-- C1: when the OCR capability fails with quota exhaustion on page k of
document d, the run saves exactly the rows accumulated so far — all rows
from the documents before d plus the rows of pages 1..k-1 of d — processes
no further pages and no later documents, and terminates with the abort
flag set. -/
theorem c1_quota_abort_saves_partial
    (pre post : List DocEnv) (d : DocEnv) (pp rest : List PageEnv)
    (pk : PageEnv) (e : List Char) (rid0 rid1 : Nat) (rows0 rows1 : List Row)
    (hpre : runDocs 1 [] pre = Except.ok (rid0, rows0))
    (hdl : d.downloadOk = true)
    (hcap : d.pages.length ≤ 20)
    (hpages : d.pages = pp ++ pk :: rest)
    (hpp : runPages 1 rid0 rows0 pp = Except.ok (rid1, rows1))
    (hconv : pk.convertOk = true)
    (hverd : allowedVerdicts.contains (detectVerdict pk) = true)
    (hocr : pk.ocr = Except.error e)
    (hq : isQuotaError e = true) :
    process_multiple_pdfs_to_csv (pre ++ d :: post) = (rows1, true) := by
  have h3 : runPages 1 rid0 rows0 (pp ++ pk :: rest) = Except.error rows1 := by
    rw [runPages_append pp (pk :: rest) 1 rid0 rows0, hpp]
    show runPages (1 + pp.length) rid1 rows1 (pk :: rest) = Except.error rows1
    simp only [runPages, hconv, hverd, hocr, hq,
      show (true = false) = False by simp, if_false, if_true]
  have h2 : runDocs rid0 rows0 (d :: post) = Except.error rows1 := by
    simp only [runDocs, hdl, show (true = false) = False by simp, if_false,
      if_neg (show ¬ 20 < d.pages.length by omega)]
    rw [hpages, h3]
  have h1 : runDocs 1 [] (pre ++ d :: post) = Except.error rows1 := by
    rw [runDocs_append pre (d :: post) 1 [], hpre]
    show runDocs rid0 rows0 (d :: post) = Except.error rows1
    exact h2
  unfold process_multiple_pdfs_to_csv
  rw [h1]

/-- C1 witness: a two-page document whose second page exhausts the quota
saves exactly the one row of page 1 and aborts. -/
theorem c1_quota_abort_saves_partial_witness :
    process_multiple_pdfs_to_csv
      [⟨true, [⟨true, some "English".data,
          Except.ok "English_Text: Good morning\nKhmer_Text: none".data⟩,
        ⟨true, some "Both".data, Except.error "429 quota exceeded".data⟩]⟩]
      = ([⟨1, "Good morning".data, []⟩], true) :=
  c1_quota_abort_saves_partial [] []
    ⟨true, [⟨true, some "English".data,
        Except.ok "English_Text: Good morning\nKhmer_Text: none".data⟩,
      ⟨true, some "Both".data, Except.error "429 quota exceeded".data⟩]⟩
    [⟨true, some "English".data,
        Except.ok "English_Text: Good morning\nKhmer_Text: none".data⟩] []
    ⟨true, some "Both".data, Except.error "429 quota exceeded".data⟩
    "429 quota exceeded".data 1 2 [] [⟨1, "Good morning".data, []⟩]
    rfl rfl (by decide) rfl rfl rfl (by decide) rfl (by decide)

/-- C8: a document whose discovered page count exceeds the cap of 20 is
skipped in its entirety — zero rows, no page processed — and the batch
proceeds with the next document. -/
theorem c8_page_cap_skips_document (rid : Nat) (rows : List Row)
    (d : DocEnv) (ds : List DocEnv) (h : 20 < d.pages.length) :
    runDocs rid rows (d :: ds) = runDocs rid rows ds ∧
    process_multiple_pdfs_to_csv (d :: ds) = process_multiple_pdfs_to_csv ds := by
  have h1 : ∀ rid2 rows2, runDocs rid2 rows2 (d :: ds) = runDocs rid2 rows2 ds := by
    intro rid2 rows2
    cases hdl : d.downloadOk with
    | false => simp only [runDocs, hdl, if_pos]
    | true =>
      simp only [runDocs, hdl, show (true = false) = False by simp, if_false,
        if_pos h]
  refine ⟨h1 rid rows, ?_⟩
  unfold process_multiple_pdfs_to_csv
  rw [h1 1 []]

/-- C8 witness: a 21-page document contributes nothing. -/
theorem c8_page_cap_skips_document_witness :
    process_multiple_pdfs_to_csv
      [⟨true, List.replicate 21 (⟨true, none, Except.error []⟩ : PageEnv)⟩]
      = ([], false) :=
  ((c8_page_cap_skips_document 1 []
    ⟨true, List.replicate 21 (⟨true, none, Except.error []⟩ : PageEnv)⟩ []
    (by simp)).2).trans rfl

/-- C9: a page whose language verdict is outside the allow-list — and in
particular a page whose detection fails, which yields the verdict None — is
skipped with zero rows and no OCR call, and the batch continues with the
next page. -/
theorem c9_language_gate_skips (i rid : Nat) (rows : List Row)
    (p : PageEnv) (ps : List PageEnv) :
    (p.convertOk = true →
      allowedVerdicts.contains (detectVerdict p) = false →
      runPages i rid rows (p :: ps) = runPages (i + 1) rid rows ps) ∧
    (∀ c o, detectVerdict ⟨c, none, o⟩ = "None".data ∧
      allowedVerdicts.contains (detectVerdict (⟨c, none, o⟩ : PageEnv)) = false) := by
  constructor
  · intro hconv hv
    simp only [runPages, hconv, show (true = false) = False by simp, if_false,
      hv, if_pos]
  · intro c o
    exact ⟨rfl, rfl⟩

/-- C9 witness: an unrecognized verdict skips the page even though its OCR
outcome would have been a quota error, showing that no OCR call happens. -/
theorem c9_language_gate_skips_witness :
    runPages 1 1 [] [⟨true, some "Random".data, Except.error "429".data⟩]
      = Except.ok (1, []) :=
  ((c9_language_gate_skips 1 1 []
    ⟨true, some "Random".data, Except.error "429".data⟩ []).1 rfl (by decide)).trans
    rfl

/-- C7 counterexample: a transient (non-quota) OCR failure whose provider
error text itself contains a section marker does contribute a row, because
the synthetic placeholder is fed through the extractor. -/
theorem c7_counterexample :
    isQuotaError "English_Text: erroneous stuff".data = false ∧
    process_multiple_pdfs_to_csv
      [⟨true, [⟨true, some "English".data,
        Except.error "English_Text: erroneous stuff".data⟩]⟩]
      = ([⟨1, "erroneous stuff".data, []⟩], false) :=
  ⟨by decide, rfl⟩

/-- C7 amended: a transient OCR failure is not fatal — the batch continues
with the next page — and the failed page contributes no rows whenever the
synthetic placeholder built from the provider error text contains no
section marker; the placeholder never reaches the output in that case. -/
theorem c7_transient_failure_no_rows (i rid : Nat) (rows : List Row)
    (p : PageEnv) (ps : List PageEnv) (e : List Char)
    (hconv : p.convertOk = true)
    (hverd : allowedVerdicts.contains (detectVerdict p) = true)
    (hocr : p.ocr = Except.error e)
    (hq : isQuotaError e = false)
    (hE : containsSubCI engMarker (errorPlaceholder i e) = false)
    (hK : containsSubCI khmMarker (errorPlaceholder i e) = false) :
    runPages i rid rows (p :: ps) = runPages (i + 1) rid rows ps := by
  have hext1 : (extract_english_khmer (errorPlaceholder i e)).1 = [] :=
    extract_eng_of_absent _ hE
  have hext2 : (extract_english_khmer (errorPlaceholder i e)).2 = [] :=
    extract_khm_of_absent _ hK
  have hpe : pageEmit rid (errorPlaceholder i e) = (rid, []) := by
    simp only [pageEmit, hext1, hext2]
    simp [cleanedLines, pySplitlines, emitEng, emitKhm]
  simp only [runPages, hconv, hverd, hocr, hq,
    show (true = false) = False by simp, if_false, Bool.false_eq_true, hpe,
    List.append_nil]

/-- C7 witness: a harmless transient failure leaves the state unchanged. -/
theorem c7_transient_failure_no_rows_witness :
    runPages 1 5 [] [⟨true, some "Both".data, Except.error "boom".data⟩]
      = Except.ok (5, []) :=
  (c7_transient_failure_no_rows 1 5 []
    ⟨true, some "Both".data, Except.error "boom".data⟩ [] "boom".data
    rfl (by decide) rfl (by decide) (by decide) (by decide)).trans rfl

end PdfOcr
